import Mathlib

/-!
Verification of the record-loader behaviour of the `structs` repository.

The repository contains one positional (CSV) loader, `songEntries` in
`src/orders/main.go`, plus JSON encode/decode examples whose field-metadata
rules (override names, skip, omit-if-empty, exported-only serialization)
are described in the specification.  `songEntries` is embedded directly
from the Go source; the keyed (JSON) loader machinery lives in Go's
standard library, not in this repository, so it is modelled from the
specification's own rules (section 4.1 of the spec).
-/

namespace Structs

/-- The `song` struct of `src/orders/main.go`: three string fields. -/
structure song where
  title : String
  artist : String
  genre : String
deriving DecidableEq, Repr

/-- One iteration of the loop body of `songEntries`:
`title := row[0]; artist := row[1]; genre := row[2]`.
Go indexing `row[i]` panics when `i` is out of range; the panic is modelled
as `none`. -/
def songOfRow (row : List String) : Option song :=
  match row.get? 0, row.get? 1, row.get? 2 with
  | some title, some artist, some genre => some { title := title, artist := artist, genre := genre }
  | _, _, _ => none

/-- `songEntries` from `src/orders/main.go`: appends one `song` per row of
`data`, reading the first three entries of each row; a panic anywhere
(an out-of-range index) aborts the whole call, modelled as `none`. -/
def songEntries : List (List String) → Option (List song)
  | [] => some []
  | row :: rest =>
    match songOfRow row, songEntries rest with
    | some s, some ss => some (s :: ss)
    | _, _ => none

theorem songEntries_nil : songEntries [] = some [] := rfl

theorem songEntries_cons (row : List String) (rest : List (List String)) :
    songEntries (row :: rest) =
      match songOfRow row, songEntries rest with
      | some s, some ss => some (s :: ss)
      | _, _ => none := rfl

/-- A row with at least three fields decodes without a panic. -/
theorem songOfRow_of_three_le (row : List String) (h : 3 ≤ row.length) :
    songOfRow row = some { title := row.getD 0 "", artist := row.getD 1 "", genre := row.getD 2 "" } := by
  match row, h with
  | a :: b :: c :: rest, _ => rfl

/-- A row with fewer than three fields makes the loop body panic. -/
theorem songOfRow_of_short (row : List String) (h : row.length < 3) :
    songOfRow row = none := by
  match row, h with
  | [], _ => rfl
  | [a], _ => rfl
  | [a, b], _ => rfl

/-- Under-length rows abort the whole decode: helper for the amended C1. -/
theorem songEntries_of_all_three_le (data : List (List String))
    (h : ∀ row ∈ data, 3 ≤ row.length) :
    songEntries data =
      some (data.map (fun row =>
        { title := row.getD 0 "", artist := row.getD 1 "", genre := row.getD 2 "" })) := by
  induction data with
  | nil => rfl
  | cons row rest ih =>
    have hrow : 3 ≤ row.length := h row (List.mem_cons_self row rest)
    have hrest : ∀ r ∈ rest, 3 ≤ r.length := fun r hr => h r (List.mem_cons_of_mem row hr)
    rw [songEntries_cons, songOfRow_of_three_le row hrow, ih hrest]
    rfl

/-- C1 counterexample: on the single-row input `[["x"]]` (one field, schema
declares three), decoding does not succeed with zero-filled trailing fields;
the indexing `row[1]` panics and `songEntries` produces no entity list at
all. -/
theorem songEntries_short_row_panics :
    songEntries [["x"]] = none ∧
      songEntries [["x"]] ≠ some [{ title := "x", artist := "", genre := "" }] := by
  exact ⟨rfl, by decide⟩

/-- C1 amended: for positional input in which every row carries at least the
three declared fields, decoding succeeds, populating the three declared
fields of each entity from the first three fields of its row and ignoring
any extras; a row with fewer fields than declared aborts the whole decode
(index-out-of-range panic) instead of zero-filling. -/
theorem songEntries_populates_first_three (data : List (List String))
    (h : ∀ row ∈ data, 3 ≤ row.length) :
    songEntries data =
      some (data.map (fun row =>
        { title := row.getD 0 "", artist := row.getD 1 "", genre := row.getD 2 "" })) ∧
      ∀ row : List String, row.length < 3 → songOfRow row = none :=
  ⟨songEntries_of_all_three_le data h, songOfRow_of_short⟩

/-- Witness for the amended C1 at a concrete input: one four-field row (the
fourth field is ignored). -/
theorem songEntries_populates_first_three_witness :
    songEntries [["a", "b", "c", "d"]] =
      some [{ title := "a", artist := "b", genre := "c" }] ∧
      ∀ row : List String, row.length < 3 → songOfRow row = none := by
  have h := songEntries_populates_first_three [["a", "b", "c", "d"]] (by decide)
  exact ⟨h.1, h.2⟩

/-! ## State-passing embedding of the `songEntries` loop

For the frame property (the input slice is only read, never written) the
loop of `songEntries` is re-embedded with the input rows threaded through
an explicit state.  Each Go statement maps to an operation on the state:
`title := row[0]` etc. are reads, `songs = append(songs, ...)` writes only
the `songs` component.  No statement of the source writes to `data`, so the
embedding never updates `rows`. -/

/-- The mutable state of the `songEntries` call: the caller's input slice
`rows` (Go's `data`) and the accumulating output slice `songs`. -/
structure LoopState where
  rows : List (List String)
  songs : List song
deriving DecidableEq, Repr

/-- The loop of `songEntries` over the remaining iterations `pending`,
threading the state; `row[i]` out of range panics (`none`). -/
def runLoop (σ : LoopState) : List (List String) → Option LoopState
  | [] => some σ
  | row :: rest =>
    match songOfRow row with
    | some s => runLoop { σ with songs := σ.songs ++ [s] } rest
    | none => none

/-- Running the whole call: state starts with the caller's `data` and an
empty `songs` slice, and the loop ranges over `data`. -/
def songEntriesRun (data : List (List String)) : Option LoopState :=
  runLoop { rows := data, songs := [] } data

theorem runLoop_rows_eq (pending : List (List String)) :
    ∀ (σ σ' : LoopState), runLoop σ pending = some σ' → σ'.rows = σ.rows := by
  induction pending with
  | nil =>
    intro σ σ' h
    simp only [runLoop, Option.some.injEq] at h
    rw [← h]
  | cons row rest ih =>
    intro σ σ' h
    simp only [runLoop] at h
    cases hs : songOfRow row with
    | none => rw [hs] at h; cases h
    | some s =>
      rw [hs] at h
      simpa using ih _ _ h

/-- C10: input immutability of the positional decode.  Whenever the
`songEntries` loop finishes normally, the input slice component of the final
state equals the caller's `data` unchanged: the function builds its result
only by reading the input. -/
theorem songEntriesRun_preserves_input (data : List (List String)) (σ' : LoopState)
    (h : songEntriesRun data = some σ') : σ'.rows = data :=
  runLoop_rows_eq data _ σ' h

/-- Witness for C10 at a concrete input. -/
theorem songEntriesRun_preserves_input_witness :
    (songEntriesRun [["a", "b", "c"]]).elim True (fun σ' => σ'.rows = [["a", "b", "c"]]) := by
  have h : songEntriesRun [["a", "b", "c"]] =
      some { rows := [["a", "b", "c"]], songs := [{ title := "a", artist := "b", genre := "c" }] } := rfl
  rw [h]
  exact songEntriesRun_preserves_input [["a", "b", "c"]] _ h

/-- One entity per row: whenever `songEntries` succeeds, its output slice
has exactly one `song` per input row. -/
theorem songEntries_length :
    ∀ (data : List (List String)) (songs : List song),
      songEntries data = some songs → songs.length = data.length := by
  intro data
  induction data with
  | nil =>
    intro songs h
    simp only [songEntries, Option.some.injEq] at h
    rw [← h]
    rfl
  | cons row rest ih =>
    intro songs h
    rw [songEntries_cons] at h
    cases hs : songOfRow row with
    | none => rw [hs] at h; cases h
    | some s =>
      cases hrest : songEntries rest with
      | none => rw [hs, hrest] at h; cases h
      | some ss =>
        rw [hs, hrest] at h
        simp only [Option.some.injEq] at h
        rw [← h]
        simp [ih ss hrest]

/-! ## Keyed (JSON) loader, modelled from the spec

The encode/decode machinery the JSON examples rely on is Go's
`encoding/json`, which is not part of this repository's sources; the
definitions below are therefore modelled from the specification's rules
(spec section 4.1, the data model of section 3, and the design notes of
section 9): an explicit schema of field descriptors with a name, a scalar
type, a visibility flag, an optional override name, a skip flag, and an
omit-if-empty flag. -/

/-- Scalar types of the data model (spec section 3): string, integer,
floating point, boolean.  Floating-point values are represented exactly as
rationals, since only zero-ness and equality of values matter here. -/
inductive Ty where
  | str
  | int
  | float
  | bool
deriving DecidableEq, Repr

/-- A scalar value tagged with its type. -/
inductive Value where
  | vStr (s : String)
  | vInt (n : ℤ)
  | vFloat (q : ℚ)
  | vBool (b : Bool)
deriving DecidableEq, Repr

/-- The zero value of each scalar type: empty string, 0, 0.0, false. -/
def Ty.zero : Ty → Value
  | .str => .vStr ""
  | .int => .vInt 0
  | .float => .vFloat 0
  | .bool => .vBool false

/-- The type of a value. -/
def Value.tyOf : Value → Ty
  | .vStr _ => .str
  | .vInt _ => .int
  | .vFloat _ => .float
  | .vBool _ => .bool

/-- Whether a value equals its own type's zero value (Go's notion of an
empty value for `omitempty`). -/
def Value.isEmpty : Value → Bool
  | .vStr s => s = ""
  | .vInt n => n = 0
  | .vFloat q => q = 0
  | .vBool b => b = false

/-- Modelled from the spec: a field descriptor of the record schema
(spec sections 3 and 9) — target field name, declared scalar type,
visibility marker (Go: a capitalized name), optional override name used on
the wire (Go: the tag name), a skip flag (Go: tag `-`), and an
omit-if-empty flag (Go: tag option `omitempty`). -/
structure Field where
  name : String
  ty : Ty
  exported : Bool
  overrideName : Option String
  skip : Bool
  omitIfEmpty : Bool
deriving DecidableEq, Repr

/-- The wire key of a field: the override name if present, otherwise the
field's own name. -/
def Field.wireKey (f : Field) : String := f.overrideName.getD f.name

/-- A record schema: an ordered sequence of field descriptors. -/
abbrev Schema := List Field

/-- An entity: one value per declared field, in schema order. -/
abbrev Entity := List Value

/-- An entity is well typed for a schema when it has one value per field
and each value's type is its field's declared type. -/
def WellTyped (s : Schema) (e : Entity) : Prop :=
  List.Forall₂ (fun f v => Value.tyOf v = f.ty) s e

/-- Modelled from the spec: whether encoding emits a field holding a value
(spec section 4.1, encoding direction) — only exported, non-skip fields are
emitted, and a field marked omit-if-empty is suppressed when its value is
the zero value. -/
def emits (f : Field) (v : Value) : Bool :=
  f.exported && !f.skip && !(f.omitIfEmpty && v.isEmpty)

/-- Modelled from the spec: the keyed wire form of one entity — for each
emitted field, a pair of its wire key and its value, in schema order. -/
def encodeFields : List Field → List Value → List (String × Value)
  | f :: fs, v :: vs => (if emits f v then [(f.wireKey, v)] else []) ++ encodeFields fs vs
  | _, _ => []

/-- Encoding one entity against a schema. -/
def encodeEntity (s : Schema) (e : Entity) : List (String × Value) :=
  encodeFields s e

/-- Encoding a sequence of entities: one wire object per entity, in order. -/
def encodeList (s : Schema) (es : List Entity) : List (List (String × Value)) :=
  es.map (encodeEntity s)

/-- First value stored under a key in a wire object (Go's JSON decoding
takes the key match for a struct field from the wire object). -/
def lookupKey : List (String × Value) → String → Option Value
  | [], _ => none
  | (k, v) :: rest, key => if k = key then some v else lookupKey rest key

/-- Modelled from the spec: keyed decoding of one declared field — a field
marked skip is never populated from input; otherwise the field takes the
value stored under its wire key, matched case-sensitively, and is left at
its type's zero value when the key is absent. -/
def decodeField (m : List (String × Value)) (f : Field) : Value :=
  if f.skip then f.ty.zero
  else
    match lookupKey m f.wireKey with
    | some v => v
    | none => f.ty.zero

/-- Modelled from the spec: keyed decoding of one wire object — one value
per declared field, in schema order; unmatched wire keys are ignored. -/
def decodeEntity (s : Schema) (m : List (String × Value)) : Entity :=
  s.map (decodeField m)

/-- Modelled from the spec: keyed decoding of a wire array — entity `i` of
the output is decoded from element `i` of the input array. -/
def decodeKeyedList (s : Schema) (ms : List (List (String × Value))) : List Entity :=
  ms.map (decodeEntity s)

/-- Modelled from the spec: aggregation of per-record parse results for a
whole stream (Go: `csv.Reader.ReadAll` / `json.Decoder.Decode`, which are
not in this repository's sources).  Each element of the input list is the
parse outcome of one record; the first parse error fails the whole load and
no entity list is returned. -/
def loadAll {α : Type} : List (Except String α) → Except String (List α)
  | [] => .ok []
  | .error e :: _ => .error e
  | .ok a :: rest =>
    match loadAll rest with
    | .ok as => .ok (a :: as)
    | .error e => .error e

/-- An empty value is the zero value of its own type. -/
theorem value_isEmpty_eq_zero (v : Value) (h : v.isEmpty = true) :
    v = (Value.tyOf v).zero := by
  cases v with
  | vStr s => simp only [Value.isEmpty, decide_eq_true_eq] at h; rw [h]; rfl
  | vInt n => simp only [Value.isEmpty, decide_eq_true_eq] at h; rw [h]; rfl
  | vFloat q => simp only [Value.isEmpty, decide_eq_true_eq] at h; rw [h]; rfl
  | vBool b => simp only [Value.isEmpty, decide_eq_true_eq] at h; rw [h]; rfl

/-- Positionally related lists are related at every common index. -/
theorem forall₂_get?_rel {α β : Type} {R : α → β → Prop} :
    ∀ (xs : List α) (ys : List β), List.Forall₂ R xs ys →
      ∀ (i : ℕ) (x : α) (y : β), xs.get? i = some x → ys.get? i = some y → R x y := by
  intro xs ys h
  induction h with
  | nil => intro i x y hx _; cases i <;> simp [List.get?] at hx
  | cons hR _ ih =>
    intro i x y hx hy
    cases i with
    | zero =>
      simp only [List.get?, Option.some.injEq] at hx hy
      rw [← hx, ← hy]
      exact hR
    | succ j =>
      simp only [List.get?] at hx hy
      exact ih j x y hx hy

/-- A key carried by no field of the schema is absent from the encoding. -/
theorem lookupKey_encodeFields_of_not_mem :
    ∀ (fs : List Field) (vs : List Value) (k : String),
      (∀ f ∈ fs, f.wireKey ≠ k) → lookupKey (encodeFields fs vs) k = none := by
  intro fs
  induction fs with
  | nil => intro vs k _; cases vs <;> rfl
  | cons f₀ fs ih =>
    intro vs k h
    cases vs with
    | nil => rfl
    | cons v₀ vs =>
      have hk : f₀.wireKey ≠ k := h f₀ (List.mem_cons_self f₀ fs)
      have hrest : ∀ f ∈ fs, f.wireKey ≠ k := fun f hf => h f (List.mem_cons_of_mem f₀ hf)
      simp only [encodeFields]
      by_cases he : emits f₀ v₀ = true
      · simp only [he, if_pos, List.singleton_append, lookupKey, if_neg hk]
        exact ih vs k hrest
      · simp only [he, if_neg, Bool.false_eq_true, not_false_eq_true, List.nil_append]
        exact ih vs k hrest

/-- Looking up a field's own wire key in the encoding, under pairwise
distinct wire keys: present with the field's value exactly when the field
is emitted. -/
theorem lookupKey_encodeFields :
    ∀ (fs : List Field) (vs : List Value), (fs.map Field.wireKey).Nodup →
      ∀ (i : ℕ) (f : Field) (v : Value), fs.get? i = some f → vs.get? i = some v →
        lookupKey (encodeFields fs vs) f.wireKey =
          if emits f v then some v else none := by
  intro fs
  induction fs with
  | nil => intro vs _ i f v hf _; cases i <;> simp [List.get?] at hf
  | cons f₀ fs ih =>
    intro vs hnd i f v hf hv
    cases vs with
    | nil => cases i <;> simp [List.get?] at hv
    | cons v₀ vs =>
      rw [List.map_cons, List.nodup_cons] at hnd
      cases i with
      | zero =>
        simp only [List.get?, Option.some.injEq] at hf hv
        rw [← hf, ← hv]
        simp only [encodeFields]
        by_cases he : emits f₀ v₀ = true
        · rw [if_pos he, if_pos he, List.singleton_append]
          simp [lookupKey]
        · rw [if_neg he, if_neg he, List.nil_append]
          exact lookupKey_encodeFields_of_not_mem fs vs f₀.wireKey
            (fun g hg hEq => hnd.1 (hEq ▸ List.mem_map_of_mem Field.wireKey hg))
      | succ j =>
        simp only [List.get?] at hf hv
        have hfmem : f ∈ fs := List.get?_mem hf
        have hne : f₀.wireKey ≠ f.wireKey :=
          fun hEq => hnd.1 (hEq ▸ List.mem_map_of_mem Field.wireKey hfmem)
        simp only [encodeFields]
        by_cases he : emits f₀ v₀ = true
        · rw [if_pos he, List.singleton_append]
          simp only [lookupKey]
          rw [if_neg hne]
          exact ih vs hnd.2 j f v hf hv
        · rw [if_neg he, List.nil_append]
          exact ih vs hnd.2 j f v hf hv

/-- Decoding a field of the encoding of a well-typed entity: exported,
non-skip fields get their original value back, all others their type's
zero value. -/
theorem decodeField_encodeFields (fs : List Field) (vs : List Value)
    (ht : WellTyped fs vs) (hnd : (fs.map Field.wireKey).Nodup)
    (i : ℕ) (f : Field) (v : Value) (hf : fs.get? i = some f) (hv : vs.get? i = some v) :
    decodeField (encodeFields fs vs) f =
      if f.exported = true ∧ f.skip = false then v else f.ty.zero := by
  have hty : Value.tyOf v = f.ty := forall₂_get?_rel fs vs ht i f v hf hv
  have hlook := lookupKey_encodeFields fs vs hnd i f v hf hv
  unfold decodeField
  by_cases hskip : f.skip = true
  · have : ¬(f.exported = true ∧ f.skip = false) := fun h => by rw [hskip] at h; exact absurd h.2 (by simp)
    simp [hskip, this]
  · have hskip' : f.skip = false := by revert hskip; cases f.skip <;> simp
    by_cases hexp : f.exported = true
    · by_cases he : emits f v = true
      · rw [hlook]
        simp [hskip', he, hexp]
      · have homit : f.omitIfEmpty = true ∧ v.isEmpty = true := by
          revert he
          unfold emits
          rw [hexp, hskip']
          cases h₁ : f.omitIfEmpty <;> cases h₂ : v.isEmpty <;> simp
        have hvz : v = f.ty.zero := by
          rw [← hty]
          exact value_isEmpty_eq_zero v homit.2
        rw [hlook, if_neg he]
        simp [hskip', hexp, hvz]
    · have he : emits f v = false := by
        unfold emits
        revert hexp; cases f.exported <;> simp
      rw [hlook]
      simp [hskip', he, hexp]

/-! ## Concrete schemas of the repository's examples -/

/-- Schema of the anonymous `countries` struct used for encoding
(`src/unnamed/part_000`): `Name`, `Capital` exported strings, `population`
a non-exported int. -/
def countriesSchema : Schema :=
  [ { name := "Name", ty := .str, exported := true, overrideName := none,
      skip := false, omitIfEmpty := false },
    { name := "Capital", ty := .str, exported := true, overrideName := none,
      skip := false, omitIfEmpty := false },
    { name := "population", ty := .int, exported := false, overrideName := none,
      skip := false, omitIfEmpty := false } ]

/-- Schema of the `country` struct used for decoding
(`src/unnamed/part_000`): `Name`, `Capital`, non-exported `population`,
and `Space`. -/
def countrySchema : Schema :=
  [ { name := "Name", ty := .str, exported := true, overrideName := none,
      skip := false, omitIfEmpty := false },
    { name := "Capital", ty := .str, exported := true, overrideName := none,
      skip := false, omitIfEmpty := false },
    { name := "population", ty := .int, exported := false, overrideName := none,
      skip := false, omitIfEmpty := false },
    { name := "Space", ty := .int, exported := true, overrideName := none,
      skip := false, omitIfEmpty := false } ]

/-- Schema of the `Record` struct of the field-tag example
(`src/unnamed/part_001`): `Field1` tagged `-` (skip), `Field2` renamed
`foo` with `omitempty`, `Field3` renamed `bar`, `Field4` untagged. -/
def recordSchema : Schema :=
  [ { name := "Field1", ty := .str, exported := true, overrideName := none,
      skip := true, omitIfEmpty := false },
    { name := "Field2", ty := .str, exported := true, overrideName := some "foo",
      skip := false, omitIfEmpty := true },
    { name := "Field3", ty := .str, exported := true, overrideName := some "bar",
      skip := false, omitIfEmpty := false },
    { name := "Field4", ty := .str, exported := true, overrideName := none,
      skip := false, omitIfEmpty := false } ]

/-- The encoder reproduces the documented output of the `Record` example:
`{Field1:"a",Field2:"b",Field3:"c",Field4:"d"}` and `{Field1:"a"}` encode to
`{"foo":"b","bar":"c","Field4":"d"}` and `{"bar":"","Field4":""}`. -/
theorem record_example_encoding :
    encodeList recordSchema
        [[Value.vStr "a", Value.vStr "b", Value.vStr "c", Value.vStr "d"],
         [Value.vStr "a", Value.vStr "", Value.vStr "", Value.vStr ""]] =
      [[("foo", Value.vStr "b"), ("bar", Value.vStr "c"), ("Field4", Value.vStr "d")],
       [("bar", Value.vStr ""), ("Field4", Value.vStr "")]] := by
  decide

/-- The encoder reproduces the documented content of `countries.json`:
the non-exported `population` is dropped. -/
theorem countries_example_encoding :
    encodeList countriesSchema
        [[Value.vStr "Latvia", Value.vStr "Riga", Value.vInt 1902000],
         [Value.vStr "Switzerland", Value.vStr "Bern", Value.vInt 8637000]] =
      [[("Name", Value.vStr "Latvia"), ("Capital", Value.vStr "Riga")],
       [("Name", Value.vStr "Switzerland"), ("Capital", Value.vStr "Bern")]] := by
  decide

/-- The decoder reproduces the documented output of decoding
`countries.json` into `country`: unmatched declared fields `population` and
`Space` are left at zero. -/
theorem country_example_decoding :
    decodeKeyedList countrySchema
        [[("Name", Value.vStr "Latvia"), ("Capital", Value.vStr "Riga")],
         [("Name", Value.vStr "Switzerland"), ("Capital", Value.vStr "Bern")]] =
      [[Value.vStr "Latvia", Value.vStr "Riga", Value.vInt 0, Value.vInt 0],
       [Value.vStr "Switzerland", Value.vStr "Bern", Value.vInt 0, Value.vInt 0]] := by
  decide

/-- A key stored under no pair of the wire object is never found. -/
theorem lookupKey_eq_none_of_no_key :
    ∀ (m : List (String × Value)) (k : String),
      (∀ p ∈ m, p.1 ≠ k) → lookupKey m k = none := by
  intro m k
  induction m with
  | nil => intro _; rfl
  | cons p rest ih =>
    intro h
    obtain ⟨a, b⟩ := p
    simp only [lookupKey]
    rw [if_neg (h (a, b) (List.mem_cons_self (a, b) rest))]
    exact ih (fun q hq => h q (List.mem_cons_of_mem (a, b) hq))

/-- C2: keyed-decode matching is case-sensitive.  A declared field is
populated only from the wire key equal to its override name if present,
otherwise its own name: if no key of the wire object equals the field's
wire key — in particular when a key differs from it only in letter case —
the field is left at its type's zero value; and when the wire key is
present, the field takes exactly the value stored under it. -/
theorem decodeField_matches_case_sensitively (m : List (String × Value)) (f : Field) :
    ((∀ p ∈ m, p.1 ≠ f.wireKey) → decodeField m f = f.ty.zero) ∧
      (f.skip = false → ∀ v, lookupKey m f.wireKey = some v → decodeField m f = v) := by
  constructor
  · intro h
    unfold decodeField
    rw [lookupKey_eq_none_of_no_key m f.wireKey h]
    by_cases hs : f.skip = true <;> simp [hs]
  · intro hs v hv
    unfold decodeField
    rw [if_neg (by rw [hs]; exact Bool.false_ne_true), hv]

/-- Witness for C2: the wire object `{"name": "Latvia"}` — whose key
differs from the declared field `Name` only in letter case — leaves the
field at the empty string, while `{"Name": "Latvia"}` populates it. -/
theorem decodeField_matches_case_sensitively_witness :
    decodeField [("name", Value.vStr "Latvia")]
        { name := "Name", ty := Ty.str, exported := true, overrideName := none,
          skip := false, omitIfEmpty := false } = Ty.str.zero ∧
      decodeField [("Name", Value.vStr "Latvia")]
        { name := "Name", ty := Ty.str, exported := true, overrideName := none,
          skip := false, omitIfEmpty := false } = Value.vStr "Latvia" :=
  ⟨(decodeField_matches_case_sensitively _ _).1 (by decide),
   (decodeField_matches_case_sensitively _ _).2 rfl _ rfl⟩

/-- C5: omit-if-empty law.  For an exported, non-skip field marked
omit-if-empty (with pairwise distinct wire keys in the schema), the
encoding of an entity carries the field's key exactly when the field's
value is not the zero value, and then carries exactly that value. -/
theorem encode_omitIfEmpty_presence (s : Schema) (e : Entity)
    (hnd : (s.map Field.wireKey).Nodup)
    (i : ℕ) (f : Field) (v : Value) (hf : s.get? i = some f) (hv : e.get? i = some v)
    (homit : f.omitIfEmpty = true) (hexp : f.exported = true) (hskip : f.skip = false) :
    lookupKey (encodeEntity s e) f.wireKey = if v.isEmpty then none else some v := by
  unfold encodeEntity
  rw [lookupKey_encodeFields s e hnd i f v hf hv]
  unfold emits
  rw [hexp, hskip, homit]
  cases hve : v.isEmpty <;> simp

/-- Witness for C5 at the `Record` schema's `Field2` (wire key `foo`):
absent for the empty string, present with the value otherwise. -/
theorem encode_omitIfEmpty_presence_witness :
    lookupKey (encodeEntity recordSchema
        [Value.vStr "a", Value.vStr "", Value.vStr "", Value.vStr ""]) "foo" = none ∧
      lookupKey (encodeEntity recordSchema
        [Value.vStr "a", Value.vStr "b", Value.vStr "c", Value.vStr "d"]) "foo" =
        some (Value.vStr "b") := by
  constructor
  · have h := encode_omitIfEmpty_presence recordSchema
      [Value.vStr "a", Value.vStr "", Value.vStr "", Value.vStr ""]
      (by decide) 1 _ _ rfl rfl rfl rfl rfl
    simpa using h
  · have h := encode_omitIfEmpty_presence recordSchema
      [Value.vStr "a", Value.vStr "b", Value.vStr "c", Value.vStr "d"]
      (by decide) 1 _ _ rfl rfl rfl rfl rfl
    simpa using h

/-- Two entities of a schema agree on all exported fields (and both carry
one value per declared field). -/
def agreeExported : List Field → List Value → List Value → Bool
  | [], [], [] => true
  | f :: fs, v₁ :: vs₁, v₂ :: vs₂ =>
    (!f.exported || v₁ == v₂) && agreeExported fs vs₁ vs₂
  | _, _, _ => false

/-- Agreement on exported fields makes the encodings equal. -/
theorem encodeFields_agree :
    ∀ (fs : List Field) (vs₁ vs₂ : List Value),
      agreeExported fs vs₁ vs₂ = true → encodeFields fs vs₁ = encodeFields fs vs₂ := by
  intro fs
  induction fs with
  | nil =>
    intro vs₁ vs₂ h
    cases vs₁ <;> cases vs₂ <;> rfl
  | cons f fs ih =>
    intro vs₁ vs₂ h
    cases vs₁ with
    | nil => cases vs₂ <;> simp [agreeExported] at h
    | cons v₁ vs₁ =>
      cases vs₂ with
      | nil => simp [agreeExported] at h
      | cons v₂ vs₂ =>
        simp only [agreeExported, Bool.and_eq_true, Bool.or_eq_true, Bool.not_eq_true'] at h
        obtain ⟨hhead, htail⟩ := h
        simp only [encodeFields]
        rw [ih vs₁ vs₂ htail]
        rcases hhead with hexp | heq
        · rw [show emits f v₁ = false by unfold emits; rw [hexp]; rfl,
              show emits f v₂ = false by unfold emits; rw [hexp]; rfl]
          simp
        · rw [eq_of_beq heq]

/-- Every pair the encoder emits belongs to an exported, non-skip field. -/
theorem mem_encodeFields :
    ∀ (fs : List Field) (vs : List Value) (p : String × Value),
      p ∈ encodeFields fs vs →
        ∃ f, f ∈ fs ∧ f.exported = true ∧ f.skip = false ∧ p.1 = f.wireKey := by
  intro fs
  induction fs with
  | nil => intro vs p hp; cases vs <;> simp [encodeFields] at hp
  | cons f₀ fs ih =>
    intro vs p hp
    cases vs with
    | nil => simp [encodeFields] at hp
    | cons v₀ vs =>
      simp only [encodeFields] at hp
      rcases List.mem_append.mp hp with hhead | htail
      · by_cases he : emits f₀ v₀ = true
        · rw [if_pos he] at hhead
          have hfe : f₀.exported = true ∧ f₀.skip = false := by
            revert he
            unfold emits
            cases f₀.exported <;> cases f₀.skip <;> simp
          refine ⟨f₀, List.mem_cons_self f₀ fs, hfe.1, hfe.2, ?_⟩
          rw [List.mem_singleton.mp hhead]
        · rw [if_neg he] at hhead
          cases hhead
      · obtain ⟨f, hf, h₁, h₂, h₃⟩ := ih vs p htail
        exact ⟨f, List.mem_cons_of_mem f₀ hf, h₁, h₂, h₃⟩

/-- C6: non-exported fields never interfere with serialization.  Entities
agreeing on all exported fields encode to identical wire output, and every
emitted key belongs to an exported, non-skip field — so no key of a
non-exported field appears, regardless of its tag or value. -/
theorem encode_noninterference (s : Schema) (e₁ e₂ : Entity)
    (h : agreeExported s e₁ e₂ = true) :
    encodeEntity s e₁ = encodeEntity s e₂ ∧
      ∀ p ∈ encodeEntity s e₁,
        ∃ f, f ∈ s ∧ f.exported = true ∧ f.skip = false ∧ p.1 = f.wireKey :=
  ⟨encodeFields_agree s e₁ e₂ h, fun p hp => mem_encodeFields s e₁ p hp⟩

/-- Witness for C6 at the `countries` example: the Latvia entity with
`population` 1902000 and the same entity with `population` 555 encode
identically. -/
theorem encode_noninterference_witness :
    encodeEntity countriesSchema [Value.vStr "Latvia", Value.vStr "Riga", Value.vInt 1902000] =
        encodeEntity countriesSchema [Value.vStr "Latvia", Value.vStr "Riga", Value.vInt 555] ∧
      ∀ p ∈ encodeEntity countriesSchema
          [Value.vStr "Latvia", Value.vStr "Riga", Value.vInt 1902000],
        ∃ f, f ∈ countriesSchema ∧ f.exported = true ∧ f.skip = false ∧ p.1 = f.wireKey :=
  encode_noninterference countriesSchema _ _ (by decide)

/-- Whenever the whole load succeeds, it produced one entity per record. -/
theorem loadAll_length {α : Type} :
    ∀ (rs : List (Except String α)) (es : List α),
      loadAll rs = .ok es → es.length = rs.length := by
  intro rs
  induction rs with
  | nil =>
    intro es h
    simp only [loadAll, Except.ok.injEq] at h
    rw [← h]
    rfl
  | cons r rest ih =>
    intro es h
    cases r with
    | error e => simp [loadAll] at h
    | ok a =>
      simp only [loadAll] at h
      cases hrest : loadAll rest with
      | error e => rw [hrest] at h; cases h
      | ok as =>
        rw [hrest] at h
        simp only [Except.ok.injEq] at h
        rw [← h]
        simp [ih as hrest]

/-- A malformed record anywhere in the stream fails the whole load. -/
theorem loadAll_error_of_mem {α : Type} :
    ∀ rs : List (Except String α),
      (∃ r ∈ rs, ∃ e, r = .error e) → ∃ e, loadAll rs = .error e := by
  intro rs
  induction rs with
  | nil => intro ⟨r, hr, _⟩; cases hr
  | cons r rest ih =>
    intro ⟨r', hr', e', he'⟩
    cases r with
    | error e => exact ⟨e, rfl⟩
    | ok a =>
      have hmem : r' ∈ rest := by
        cases List.mem_cons.mp hr' with
        | inl h => rw [h] at he'; cases he'
        | inr h => exact h
      obtain ⟨e, he⟩ := ih ⟨r', hmem, e', he'⟩
      refine ⟨e, ?_⟩
      simp only [loadAll]
      rw [he]

/-- C7: all-or-nothing on parse error.  A stream containing a malformed
record (a per-record parse error) makes the whole load fail with a parse
error, and no entity list — in particular none holding entities that
precede the malformed record — is ever returned. -/
theorem loadAll_all_or_nothing {α : Type} (rs : List (Except String α))
    (h : ∃ r ∈ rs, ∃ e, r = .error e) :
    (∃ e, loadAll rs = .error e) ∧ ∀ es, loadAll rs ≠ .ok es := by
  obtain ⟨e, he⟩ := loadAll_error_of_mem rs h
  exact ⟨⟨e, he⟩, fun es hes => by rw [he] at hes; cases hes⟩

/-- Witness for C7: a stream with one good record followed by one
malformed record. -/
theorem loadAll_all_or_nothing_witness :
    (∃ e, loadAll [Except.ok (1 : ℕ), Except.error "bad token"] = .error e) ∧
      ∀ es, loadAll [Except.ok (1 : ℕ), Except.error "bad token"] ≠ .ok es :=
  loadAll_all_or_nothing _
    ⟨Except.error "bad token", by simp, "bad token", rfl⟩

/-- C3: entity-count invariant.  A successful positional decode yields one
`song` per row, a successful load yields one entity per record, and a
stream with a failing record never yields an entity list at all. -/
theorem entity_count_invariant (data : List (List String)) (rs : List (Except String song)) :
    (∀ songs, songEntries data = some songs → songs.length = data.length) ∧
      (∀ es, loadAll rs = .ok es → es.length = rs.length) ∧
      ((∃ r ∈ rs, ∃ e, r = .error e) → ∀ es, loadAll rs ≠ .ok es) := by
  refine ⟨songEntries_length data, loadAll_length rs, fun h es hes => ?_⟩
  obtain ⟨e, he⟩ := loadAll_error_of_mem rs h
  rw [he] at hes
  cases hes

/-- Witness for C3 at concrete inputs: two well-formed rows decode to two
songs; one parsed record loads to one entity; a failing record poisons the
whole load. -/
theorem entity_count_invariant_witness :
    ([{ title := "a", artist := "b", genre := "c" }] : List song).length =
        ([["a", "b", "c"]] : List (List String)).length ∧
      ∀ es, loadAll [Except.error "oops" (α := song)] ≠ .ok es := by
  have h := entity_count_invariant [["a", "b", "c"]] [Except.error "oops"]
  exact ⟨h.1 _ rfl, h.2.2 ⟨Except.error "oops", by simp, "oops", rfl⟩⟩

/-- C8: order preservation for keyed decoding — the output has one entity
per wire object and entity `i` is decoded from element `i` of the input
array. -/
theorem keyed_decode_order_preserving (s : Schema) (ms : List (List (String × Value))) :
    (decodeKeyedList s ms).length = ms.length ∧
      ∀ i : ℕ, (decodeKeyedList s ms).get? i = (ms.get? i).map (decodeEntity s) := by
  unfold decodeKeyedList
  exact ⟨List.length_map ms (decodeEntity s), fun i => List.get?_map (decodeEntity s) ms i⟩

/-- C9: empty-input boundary — an empty row list, an empty keyed array and
an empty record stream all decode to the empty entity sequence, not an
error. -/
theorem empty_input_yields_empty (s : Schema) :
    songEntries [] = some [] ∧ decodeKeyedList s [] = [] ∧
      loadAll ([] : List (Except String song)) = .ok [] :=
  ⟨rfl, rfl, rfl⟩

/-- C4: round-trip law.  For a schema with pairwise distinct wire keys and
well-typed entities, encoding a sequence of entities to the keyed wire form
and decoding it back yields, entity by entity, the original value on every
field that is exported and not marked skip, and the field's type's zero
value on every field that is marked skip or non-exported. -/
theorem roundTrip_keyed (s : Schema) (es : List Entity)
    (hnd : (s.map Field.wireKey).Nodup)
    (ht : ∀ e ∈ es, WellTyped s e) :
    ∀ (j : ℕ) (e : Entity), es.get? j = some e →
      (decodeKeyedList s (encodeList s es)).get? j =
          some (decodeEntity s (encodeEntity s e)) ∧
        ∀ (i : ℕ) (f : Field) (v : Value), s.get? i = some f → e.get? i = some v →
          (decodeEntity s (encodeEntity s e)).get? i =
            some (if f.exported = true ∧ f.skip = false then v else f.ty.zero) := by
  intro j e hj
  constructor
  · unfold decodeKeyedList encodeList
    rw [List.get?_map, List.get?_map, hj]
    rfl
  · intro i f v hf hv
    unfold decodeEntity
    rw [List.get?_map, hf]
    have hd := decodeField_encodeFields s e (ht e (List.get?_mem hj)) hnd i f v hf hv
    show some (decodeField (encodeEntity s e) f) = _
    rw [show decodeField (encodeEntity s e) f =
        if f.exported = true ∧ f.skip = false then v else f.ty.zero from hd]

/-- Witness for C4 at the `country` schema and the Latvia entity: `Name`,
`Capital` and `Space` survive the round trip, the non-exported
`population` comes back at zero. -/
theorem roundTrip_keyed_witness :
    (decodeKeyedList countrySchema (encodeList countrySchema
        [[Value.vStr "Latvia", Value.vStr "Riga", Value.vInt 1902000, Value.vInt 64589]])).get? 0 =
        some (decodeEntity countrySchema (encodeEntity countrySchema
          [Value.vStr "Latvia", Value.vStr "Riga", Value.vInt 1902000, Value.vInt 64589])) ∧
      (decodeEntity countrySchema (encodeEntity countrySchema
          [Value.vStr "Latvia", Value.vStr "Riga", Value.vInt 1902000, Value.vInt 64589])).get? 2 =
        some (if false = true ∧ false = false then Value.vInt 1902000 else Ty.int.zero) := by
  have h := roundTrip_keyed countrySchema
      [[Value.vStr "Latvia", Value.vStr "Riga", Value.vInt 1902000, Value.vInt 64589]]
      (by decide)
      (by
        intro e he
        rw [List.mem_singleton.mp he]
        unfold WellTyped
        refine List.Forall₂.cons rfl (List.Forall₂.cons rfl
          (List.Forall₂.cons rfl (List.Forall₂.cons rfl List.Forall₂.nil))))
      0 _ rfl
  exact ⟨h.1, h.2 2 _ _ rfl rfl⟩

end Structs
